import Mathlib

set_option maxRecDepth 10000

/-!
Verification development for the two maintenance scripts in `fix-path.js`:
the `PathFixer` class (structure reorganisation and depth-based path
rewriting) and the `RemoveFooterSection` class (footer removal with
widget re-insertion).  File contents are modelled as `List Char`; the
JavaScript regular-expression substitutions used by the scripts are
modelled by executable matchers over `List Char` with exact
leftmost/lazy/greedy semantics.  Replacement scanning follows
`String.prototype.replace` with a global regex: the string is scanned
left to right, a match is replaced and scanning resumes after the match
(replacement text is never rescanned); an empty match advances one
character.  None of the replacement strings used by the scripts contain
the dollar escape sequences that `String.prototype.replace` treats
specially, so replacements are modelled as plain text.
-/

/-- Characters of a file, in order. -/
abbrev Str := List Char

/-- Shorthand for string-literal to character-list conversion. -/
def toL (s : String) : Str := s.toList

/-- The single-quote character (written by code point to keep literals simple). -/
def sqc : Char := Char.ofNat 39

/-- The double-quote character. -/
def dqc : Char := Char.ofNat 34

/-- Matcher for a literal pattern: succeeds at the head of `s` iff `pat`
is a prefix of `s`, consuming `pat.length` characters.  This is the
semantics of a JavaScript regex consisting only of escaped literal
characters, such as `/\.\.\//`. -/
def litM (pat : Str) (s : Str) : Option Nat :=
  if pat.isPrefixOf s then some pat.length else none

/-- Matcher for the character class `["']` followed by a literal domain
pattern, as in `/["']\/www\.miracles-of-quran\.com\//`. -/
def quoteM (dom : Str) (s : Str) : Option Nat :=
  match s with
  | [] => none
  | c :: t => if (c = dqc ∨ c = sqc) ∧ dom.isPrefixOf t then some (dom.length + 1) else none

/-- Global regex replacement: scan left to right with matcher `m`,
emitting `repl` for each match and resuming after it.  `fuel` bounds the
number of scanning steps; each step consumes at least one input
character, so `s.length + 1` fuel always suffices (see `replaceAllM`). -/
def replaceAllMF : Nat → (Str → Option Nat) → Str → Str → Str
  | 0, _, _, s => s
  | _ + 1, _, _, [] => []
  | fuel + 1, m, repl, c :: t =>
    match m (c :: t) with
    | some (n + 1) => repl ++ replaceAllMF fuel m repl (List.drop (n + 1) (c :: t))
    | some 0 => repl ++ c :: replaceAllMF fuel m repl t
    | none => c :: replaceAllMF fuel m repl t

/-- Global regex replacement with sufficient fuel. -/
def replaceAllM (m : Str → Option Nat) (repl s : Str) : Str :=
  replaceAllMF (s.length + 1) m repl s

/-- Seam structure of a string with respect to matcher `m`: the list of
maximal non-matching segments between successive matches, mirroring the
scan of `replaceAllMF`.  `replaceAllMF` equals interleaving the
replacement between these segments (`replaceAllMF_eq_intercalate`). -/
def splitMF : Nat → (Str → Option Nat) → Str → List Str
  | 0, _, s => [s]
  | _ + 1, _, [] => [[]]
  | fuel + 1, m, c :: t =>
    match m (c :: t) with
    | some (n + 1) => [] :: splitMF fuel m (List.drop (n + 1) (c :: t))
    | some 0 => [] :: List.modifyHead (c :: ·) (splitMF fuel m t)
    | none => List.modifyHead (c :: ·) (splitMF fuel m t)

/-- Does the matcher succeed anywhere in `s` (at any suffix)? -/
def hasOccM (m : Str → Option Nat) (s : Str) : Bool :=
  s.tails.any fun t => (m t).isSome

/-- JavaScript `String.prototype.includes`. -/
def containsSub (s pat : Str) : Bool :=
  s.tails.any fun t => pat.isPrefixOf t

theorem splitMF_ne_nil (fuel : Nat) (m : Str → Option Nat) (s : Str) :
    splitMF fuel m s ≠ [] := by
  cases fuel with
  | zero => simp [splitMF]
  | succ fuel =>
    cases s with
    | nil => simp [splitMF]
    | cons c t =>
      simp only [splitMF]
      cases m (c :: t) with
      | none =>
        cases h : splitMF fuel m t with
        | nil => exact absurd h (splitMF_ne_nil fuel m t)
        | cons a l => simp [h]
      | some n => cases n <;> simp

theorem intercalate_nil_cons (r : Str) (L : List Str) (h : L ≠ []) :
    List.intercalate r ([] :: L) = r ++ List.intercalate r L := by
  cases L with
  | nil => exact absurd rfl h
  | cons a t => simp [List.intercalate, List.intersperse]

theorem intercalate_modifyHead (r : Str) (c : Char) (L : List Str) (h : L ≠ []) :
    List.intercalate r (List.modifyHead (c :: ·) L) = c :: List.intercalate r L := by
  cases L with
  | nil => exact absurd rfl h
  | cons a t =>
    cases t with
    | nil => simp [List.intercalate, List.intersperse, List.modifyHead]
    | cons b t2 => simp [List.intercalate, List.intersperse, List.modifyHead]

/-- The global replacement replaces exactly the matched occurrences:
it equals the non-matching segments interleaved with the replacement. -/
theorem replaceAllMF_eq_intercalate (fuel : Nat) (m : Str → Option Nat) (repl s : Str) :
    replaceAllMF fuel m repl s = List.intercalate repl (splitMF fuel m s) := by
  induction fuel generalizing s with
  | zero => simp [replaceAllMF, splitMF, List.intercalate, List.intersperse]
  | succ fuel ih =>
    cases s with
    | nil => simp [replaceAllMF, splitMF, List.intercalate, List.intersperse]
    | cons c t =>
      simp only [replaceAllMF, splitMF]
      cases m (c :: t) with
      | none => rw [ih, intercalate_modifyHead _ _ _ (splitMF_ne_nil fuel m t)]
      | some n =>
        cases n with
        | zero =>
          rw [ih, intercalate_nil_cons]
          · rw [intercalate_modifyHead _ _ _ (splitMF_ne_nil fuel m t)]
          · cases h : splitMF fuel m t with
            | nil => exact absurd h (splitMF_ne_nil fuel m t)
            | cons a l => simp [h]
        | succ n =>
          show repl ++ replaceAllMF fuel m repl (List.drop (n + 1) (c :: t)) =
            List.intercalate repl ([] :: splitMF fuel m (List.drop (n + 1) (c :: t)))
          rw [ih, intercalate_nil_cons _ _ (splitMF_ne_nil fuel m _)]

theorem replaceAllM_eq_intercalate (m : Str → Option Nat) (repl s : Str) :
    replaceAllM m repl s = List.intercalate repl (splitMF (s.length + 1) m s) :=
  replaceAllMF_eq_intercalate _ m repl s

/-- If the matcher succeeds nowhere in `s`, the global replacement is the identity. -/
theorem replaceAllMF_of_no_occ (fuel : Nat) (m : Str → Option Nat) (repl s : Str)
    (h : hasOccM m s = false) : replaceAllMF fuel m repl s = s := by
  induction fuel generalizing s with
  | zero => rfl
  | succ fuel ih =>
    cases s with
    | nil => rfl
    | cons c t =>
      unfold hasOccM at h
      rw [List.tails_cons, List.any_cons] at h
      have h1 : m (c :: t) = none := by
        cases hm : m (c :: t) with
        | none => rfl
        | some n => simp [hm] at h
      have h2 : hasOccM m t = false := by
        unfold hasOccM
        cases hb : t.tails.any fun u => (m u).isSome with
        | false => rfl
        | true => simp [hb] at h
      simp only [replaceAllMF, h1]
      rw [ih t h2]

/-- Replacing a literal pattern by itself is the identity. -/
theorem replaceAllMF_lit_self (pat : Str) (fuel : Nat) (s : Str)
    (h : s.length < fuel) : replaceAllMF fuel (litM pat) pat s = s := by
  induction fuel generalizing s with
  | zero => omega
  | succ fuel ih =>
    cases s with
    | nil => rfl
    | cons c t =>
      simp only [replaceAllMF, litM]
      by_cases hp : pat.isPrefixOf (c :: t)
      · have hpre : pat <+: c :: t := List.isPrefixOf_iff_prefix.mp hp
        obtain ⟨rest, hrest⟩ := hpre
        cases hn : pat.length with
        | zero =>
          have : pat = [] := List.eq_nil_of_length_eq_zero hn
          subst this
          simp only [if_pos hp, hn]
          rw [ih t (by simp at h; omega)]
          simp
        | succ n =>
          simp only [if_pos hp, hn]
          have hd : List.drop (n + 1) (c :: t) = rest := by
            rw [← hrest, ← hn, List.drop_left]
          rw [hd, ih rest ?_]
          · exact hrest
          · have hlen : (c :: t).length = pat.length + rest.length := by
              rw [← hrest]; simp
            rw [hn] at hlen
            simp only [List.length_cons] at h hlen
            omega
      · simp only [if_neg hp]
        rw [ih t ?_]
        simp at h; omega

/-- Identity of `replaceAllM` on occurrence-free input. -/
theorem replaceAllM_of_no_occ (m : Str → Option Nat) (repl s : Str)
    (h : hasOccM m s = false) : replaceAllM m repl s = s :=
  replaceAllMF_of_no_occ _ m repl s h

/-!
## Model of `PathFixer.fixPathsInHtml` (fix-path.js lines 116-160)

The function reads a file, computes `depth` as the number of path
separators in the path relative to the root
(`relativePath.split(path.sep).length - 1`), rewrites every occurrence
of `../` depending on the depth, rewrites quoted references to the old
`www.miracles-of-quran.com/` prefix, and writes the file back only when
the content changed.
-/

/-- The parent-traversal token `../`. -/
def dotsPat : Str := toL "../"

/-- The old domain prefix `www.miracles-of-quran.com/`. -/
def domainStr : Str := toL "www.miracles-of-quran.com/"

/-- The old domain prefix with a leading slash. -/
def slashDomainStr : Str := toL "/www.miracles-of-quran.com/"

/-- Depth of a file below the root: segment count of the relative path
minus one (`relativePath.split(path.sep).length - 1`). -/
def depthOf (relSegments : List String) : Nat := relSegments.length - 1

/-- The replacement chosen for `../` by the three branches at
lines 128-138: `./` at depth 0, `../` at depth 1, `'../'.repeat(depth)`
otherwise. -/
def dotsRepl (depth : Nat) : Str :=
  if depth = 0 then toL "./"
  else if depth = 1 then toL "../"
  else (List.replicate depth (toL "../")).flatten

/-- The depth-dependent `content.replace(/\.\.\//g, ...)` stage. -/
def fixDotsStage (depth : Nat) (content : Str) : Str :=
  replaceAllM (litM dotsPat) (dotsRepl depth) content

/-- The four domain-reference rewrites at lines 141-146, in order:
`/["']\/www\.miracles-of-quran\.com\//g` to `"/`,
`/["']www\.miracles-of-quran\.com\//g` to `"./`,
`/href="www\.miracles-of-quran\.com\//g` to `href="./`, and
`/src="www\.miracles-of-quran\.com\//g` to `src="./`. -/
def fixDomainStages (c : Str) : Str :=
  replaceAllM (litM (toL "src=\"" ++ domainStr)) (toL "src=\"./")
    (replaceAllM (litM (toL "href=\"" ++ domainStr)) (toL "href=\"./")
      (replaceAllM (quoteM domainStr) (toL "\"./")
        (replaceAllM (quoteM slashDomainStr) (toL "\"/") c)))

/-- The full text transformation of `fixPathsInHtml` on one file. -/
def fixPathsContent (depth : Nat) (content : Str) : Str :=
  fixDomainStages (fixDotsStage depth content)

/-- Write-back guard of `fixPathsInHtml` (line 149): the file is written,
and `processedFiles` incremented, iff `content !== originalContent`. -/
def fixPathsWrites (depth : Nat) (content : Str) : Bool :=
  decide (fixPathsContent depth content ≠ content)

/-- The seams of a content string at its `../` occurrences. -/
def splitOnDots (c : Str) : List Str := splitMF (c.length + 1) (litM dotsPat) c

/-- The replacement the claim prescribes per depth: the same-directory
token at depth 0 and `d` repetitions of the parent token at depth `d ≥ 1`
(one repetition at depth 1). -/
def claimDotsRepl (d : Nat) : Str :=
  if d = 0 then toL "./" else (List.replicate d (toL "../")).flatten

theorem dotsRepl_eq_claim (d : Nat) : dotsRepl d = claimDotsRepl d := by
  unfold dotsRepl claimDotsRepl
  rcases d with _ | _ | d <;> simp [toL]

/-- C1: at depth `d`, every textual occurrence of `../` is replaced by
the depth-dependent token: `./` at depth 0, `../` at depth 1, and `d`
repetitions of `../` at depth `d ≥ 2` (`../../` at 2, `../../../` at 3). -/
theorem fixDotsStage_replaces_every_occurrence :
    (∀ d c, fixDotsStage d c = List.intercalate (claimDotsRepl d) (splitOnDots c)) ∧
    claimDotsRepl 0 = toL "./" ∧ claimDotsRepl 1 = toL "../" ∧
    claimDotsRepl 2 = toL "../../" ∧ claimDotsRepl 3 = toL "../../../" := by
  refine ⟨fun d c => ?_, by decide, by decide, by decide, by decide⟩
  unfold fixDotsStage splitOnDots
  rw [replaceAllM_eq_intercalate, dotsRepl_eq_claim]

/-- C2 counterexample: the path substitutions are not idempotent.  At
depth 2 each pass maps `../` to `../../`, so a second application of the
transformation changes already-transformed content again. -/
theorem fixPaths_not_idempotent :
    fixPathsContent 2 (toL "../") = toL "../../" ∧
    fixPathsContent 2 (fixPathsContent 2 (toL "../")) ≠ fixPathsContent 2 (toL "../") := by
  constructor
  · rfl
  · decide

theorem hasOccM_of_tail {m : Str → Option Nat} {c : Char} {t : Str}
    (h : hasOccM m (c :: t) = false) : m (c :: t) = none ∧ hasOccM m t = false := by
  unfold hasOccM at h ⊢
  rw [List.tails_cons, List.any_cons] at h
  constructor
  · cases hm : m (c :: t) with
    | none => rfl
    | some n => simp [hm] at h
  · cases hb : t.tails.any fun u => (m u).isSome with
    | false => rfl
    | true => simp [hb] at h

theorem hasOccM_suffix {m : Str → Option Nat} {s t : Str}
    (hst : t <:+ s) (h : hasOccM m s = false) : hasOccM m t = false := by
  induction s with
  | nil =>
    rw [List.suffix_nil.mp hst]
    exact h
  | cons c s ih =>
    rcases List.suffix_cons_iff.mp hst with h1 | h2
    · rw [h1]; exact h
    · exact ih h2 (hasOccM_of_tail h).2

/-- A match of the `href="www....com/` literal pattern at some suffix
yields a match of the quote-plus-domain pattern five characters in. -/
theorem no_quote_occ_no_lit_occ (pre : Str) (s : Str)
    (h : hasOccM (quoteM domainStr) s = false) :
    hasOccM (litM (pre ++ dqc :: domainStr)) s = false := by
  induction s with
  | nil =>
    have hnil : (pre ++ dqc :: domainStr).isPrefixOf ([] : Str) = false := by
      cases pre <;> rfl
    simp [hasOccM, litM, hnil]
  | cons c t ih =>
    unfold hasOccM
    rw [List.tails_cons, List.any_cons]
    have h2 := (hasOccM_of_tail h).2
    have ht := ih h2
    unfold hasOccM at ht
    rw [ht]
    simp only [Bool.or_false]
    cases hp : (pre ++ dqc :: domainStr).isPrefixOf (c :: t) with
    | false => simp [litM, hp]
    | true =>
      exfalso
      have hpre : pre ++ dqc :: domainStr <+: c :: t := List.isPrefixOf_iff_prefix.mp hp
      obtain ⟨rest, hrest⟩ := hpre
      have hsuf : dqc :: (domainStr ++ rest) <:+ c :: t := by
        refine ⟨pre, ?_⟩
        rw [← hrest]
        simp
      have hq : hasOccM (quoteM domainStr) (dqc :: (domainStr ++ rest)) = false :=
        hasOccM_suffix hsuf h
      have := (hasOccM_of_tail hq).1
      unfold quoteM at this
      simp [List.isPrefixOf_iff_prefix] at this

/-- Contents free of the two quoted-domain patterns are untouched by the
four domain-reference rewrites. -/
theorem fixDomainStages_of_no_occ (c : Str)
    (h1 : hasOccM (quoteM slashDomainStr) c = false)
    (h2 : hasOccM (quoteM domainStr) c = false) :
    fixDomainStages c = c := by
  unfold fixDomainStages
  rw [replaceAllM_of_no_occ _ _ _ h1, replaceAllM_of_no_occ _ _ _ h2]
  have hh : toL "href=\"" ++ domainStr = toL "href=" ++ dqc :: domainStr := by decide
  have hs : toL "src=\"" ++ domainStr = toL "src=" ++ dqc :: domainStr := by decide
  rw [hh, hs]
  rw [replaceAllM_of_no_occ _ _ _ (no_quote_occ_no_lit_occ _ _ h2),
    replaceAllM_of_no_occ _ _ _ (no_quote_occ_no_lit_occ _ _ h2)]

/-- C2 amended: the substitution pipeline is a no-op (hence trivially
idempotent) exactly on the fixed points of one pass; in particular at
depth 1 any content free of quoted old-domain references is a fixed
point, because the `../` substitution at depth 1 replaces the token by
itself.  At other depths, or on contents with quoted old-domain
references, a second pass can change the content again. -/
theorem fixPaths_idempotent_at_depth_one (c : Str)
    (h1 : hasOccM (quoteM slashDomainStr) c = false)
    (h2 : hasOccM (quoteM domainStr) c = false) :
    fixPathsContent 1 c = c ∧
    fixPathsContent 1 (fixPathsContent 1 c) = fixPathsContent 1 c := by
  have hfix : fixPathsContent 1 c = c := by
    unfold fixPathsContent fixDotsStage
    have hr : dotsRepl 1 = dotsPat := by decide
    rw [hr]
    unfold replaceAllM
    rw [replaceAllMF_lit_self _ _ _ (by omega)]
    exact fixDomainStages_of_no_occ c h1 h2
  rw [hfix]
  exact ⟨rfl, hfix⟩

/-- Witness for `fixPaths_idempotent_at_depth_one` at a concrete content. -/
theorem fixPaths_idempotent_at_depth_one_witness :
    fixPathsContent 1 (toL "<a href=\"../x.html\">go up</a>") = toL "<a href=\"../x.html\">go up</a>" := by
  have h := fixPaths_idempotent_at_depth_one (toL "<a href=\"../x.html\">go up</a>")
    (by decide) (by decide)
  exact h.1

/-!
## Model of `RemoveFooterSection.processFile` (fix-path.js lines 370-479)

The function extracts the first Google Translate widget fragment (lazy
regex), removes every `<section ... cid-tJkSLE66e9 ...>...</section>`
block, and, when a removal happened and a widget was captured, re-inserts
the widget wrapped in fixed boilerplate in place of the first `</body>`.
The regexes are modelled by a token list interpreted with JavaScript
backtracking semantics: lazy quantifiers try the shortest extension
first, the greedy `[^>]*` tries the longest first.
-/

/-- Regex token: a literal, the lazy `[\\s\\S]*?`, the lazy `.*?` (which
does not cross line terminators), or the greedy `[^>]*`. -/
inductive RTok where
  | lit : Str → RTok
  | lazyAll : RTok
  | lazyDot : RTok
  | notGtStar : RTok

/-- Characters matched by the JavaScript `.` (everything except the four
line terminators). -/
def jsDotMatches (c : Char) : Bool :=
  !(c == Char.ofNat 10 || c == Char.ofNat 13 || c == Char.ofNat 0x2028 || c == Char.ofNat 0x2029)

/-- Length of the maximal prefix without a closing angle bracket. -/
def countNotGt (s : Str) : Nat := (s.takeWhile (fun c => !(c == Char.ofNat 62))).length

/-- Structurally-lazy equality test on character lists, used to model the
JavaScript `!==` comparisons between file contents. -/
def strEqB : Str → Str → Bool
  | [], [] => true
  | a :: as, b :: bs => a == b && strEqB as bs
  | _, _ => false

/-- Lazy-quantifier scan: starting from the shortest extension, find the
first suffix of `s` at which the continuation matcher `k` succeeds,
accumulating skipped characters (in reverse) onto `acc`.  When `allowNl`
is false the scan stops at a line terminator (JavaScript `.*?`);
otherwise it may cross anything (`[\\s\\S]*?`). -/
def lazyScanSuf (allowNl : Bool) (k : Str → Str → Option (Str × Str)) :
    Str → Str → Option (Str × Str)
  | acc, [] => k acc []
  | acc, c :: t =>
    match k acc (c :: t) with
    | some r => some r
    | none => if allowNl || jsDotMatches c then lazyScanSuf allowNl k (c :: acc) t else none

/-- Backtracking matcher at the head of `s`: returns the consumed
characters (in reverse, on top of `acc`) and the remaining suffix of the
match the JavaScript engine would produce.  Lazy quantifiers take the
shortest extension that lets the rest of the pattern match; the greedy
`[^>]*` takes the longest. -/
def matchSuf : List RTok → Str → Str → Option (Str × Str)
  | [], acc, s => some (acc, s)
  | RTok.lit pat :: rest, acc, s =>
    if pat.isPrefixOf s then
      matchSuf rest (List.reverseAux (List.take pat.length s) acc) (List.drop pat.length s)
    else none
  | RTok.lazyAll :: rest, acc, s => lazyScanSuf true (matchSuf rest) acc s
  | RTok.lazyDot :: rest, acc, s => lazyScanSuf false (matchSuf rest) acc s
  | RTok.notGtStar :: rest, acc, s =>
    (List.range (countNotGt s + 1)).reverse.findSome? fun k =>
      matchSuf rest (List.reverseAux (List.take k s) acc) (List.drop k s)

/-- Matcher at the head of a string, with an empty accumulator. -/
def matchSufAt (toks : List RTok) (s : Str) : Option (Str × Str) :=
  matchSuf toks [] s

/-- Leftmost regex match in `s` (semantics of non-global `String.match`),
returning the matched text. -/
def searchRe (toks : List RTok) : Str → Option Str
  | [] =>
    match matchSufAt toks [] with
    | some (acc, _) => some acc.reverse
    | none => none
  | c :: t =>
    match matchSufAt toks (c :: t) with
    | some (acc, _) => some acc.reverse
    | none => searchRe toks t

/-- Global regex replacement: scan left to right, emitting `repl` for
each match and resuming after it; an empty match advances one character.
The first argument is a fuel list that only bounds the number of
scanning steps; since every step consumes at least one input character,
the input itself is always sufficient fuel (see `replaceAllSuf`). -/
def replaceAllSufF : Str → (Str → Option (Str × Str)) → Str → Str → Str
  | _, _, _, [] => []
  | [], _, _, s => s
  | _ :: fuelT, m, repl, c :: t =>
    match m (c :: t) with
    | some (acc, r) =>
      if acc.isEmpty then repl ++ c :: replaceAllSufF fuelT m repl t
      else repl ++ replaceAllSufF fuelT m repl r
    | none => c :: replaceAllSufF fuelT m repl t

/-- Global suffix-matcher replacement with sufficient fuel. -/
def replaceAllSuf (m : Str → Option (Str × Str)) (repl s : Str) : Str :=
  replaceAllSufF s m repl s

/-- JavaScript `String.prototype.replace` with a plain-string pattern:
replaces only the first occurrence. -/
def replaceFirstL (pat repl : Str) : Str → Str
  | [] => []
  | c :: t =>
    if pat.isPrefixOf (c :: t) then repl ++ List.drop pat.length (c :: t)
    else c :: replaceFirstL pat repl t

/-- The widget-extraction regex of line 380:
`/<div id="google_translate_element"><\/div>[\s\S]*?<script src=".*?translate_a\/element.*?<\/script>/`. -/
def widgetRe : List RTok :=
  [RTok.lit (toL "<div id=\"google_translate_element\"></div>"), RTok.lazyAll,
   RTok.lit (toL "<script src=\""), RTok.lazyDot, RTok.lit (toL "translate_a/element"),
   RTok.lazyDot, RTok.lit (toL "</script>")]

/-- The footer-removal regex of line 389:
`/<section[^>]*cid-tJkSLE66e9[^>]*>[\s\S]*?<\/section>/g`. -/
def sectionRe : List RTok :=
  [RTok.lit (toL "<section"), RTok.notGtStar, RTok.lit (toL "cid-tJkSLE66e9"),
   RTok.notGtStar, RTok.lit (toL ">"), RTok.lazyAll, RTok.lit (toL "</section>")]

/-- The footer marker token. -/
def footerMarker : Str := toL "cid-tJkSLE66e9"

/-- Global removal of all marked section blocks (line 389). -/
def removeFooterSections (c : Str) : Str :=
  replaceAllSuf (fun t => matchSufAt sectionRe t) [] c

/-- Widget fragment captured from the original content (line 380). -/
def gtWidgetOf (c : Str) : Option Str := searchRe widgetRe c

/-- The boilerplate the widget is wrapped in when re-inserted: the part
of the replacement template literal (fix-path.js lines 395-465) before
the interpolated widget. -/
def tplA : String :=
  "\n<div style=\"text-align: center; padding: 8px; background: #f8f9fa; font-size: 0;\">\n  <div style=\"display: inline-block; transform: scale(0.75); transform-origin: center;\">\n    "

/-- The part of the replacement template literal after the interpolated
widget and before the final closing body tag. -/
def tplZ : String :=
  "\n  </div>\n</div>\n<style>\n  /* Force smaller Google Translate styling */\n  #google_translate_element \x7b\n    zoom: 0.75 !important;\n    -moz-transform: scale(0.75) !important;\n    -webkit-transform: scale(0.75) !important;\n    transform: scale(0.75) !important;\n    font-size: 11px !important;\n    line-height: 1.2 !important;\n  \x7d\n  \n  #google_translate_element * \x7b\n    font-size: 11px !important;\n    max-height: 24px !important;\n  \x7d\n  \n  #google_translate_element .goog-te-combo \x7b\n    font-size: 10px !important;\n    padding: 1px 3px !important;\n    height: 20px !important;\n    border: 1px solid #ccc !important;\n  \x7d\n  \n  #google_translate_element .goog-logo-link \x7b\n    font-size: 9px !important;\n  \x7d\n  \n  #google_translate_element img \x7b\n    max-height: 12px !important;\n    max-width: 40px !important;\n    vertical-align: middle !important;\n  \x7d\n  \n  /* Hide Google branding if too large */\n  .goog-logo-link img \x7b\n    display: none !important;\n  \x7d\n  \n  /* Delay styling to override Google\x27s scripts */\n  .goog-te-gadget \x7b\n    font-size: 0 !important;\n  \x7d\n  \n  .goog-te-gadget > span \x7b\n    font-size: 10px !important;\n  \x7d\n</style>\n<script>\n  // Apply styling after Google Translate loads\n  setTimeout(function() \x7b\n    const googleElements = document.querySelectorAll(\x27#google_translate_element, #google_translate_element *\x27);\n    googleElements.forEach(el => \x7b\n      if (el.tagName === \x27SELECT\x27) \x7b\n        el.style.fontSize = \x2710px\x27;\n        el.style.height = \x2720px\x27;\n        el.style.padding = \x271px 3px\x27;\n      \x7d\n      if (el.tagName === \x27IMG\x27) \x7b\n        el.style.maxHeight = \x2712px\x27;\n        el.style.maxWidth = \x2740px\x27;\n      \x7d\n    \x7d);\n  \x7d, 2000);\n</script>\n"

/-- The full replacement inserted in place of the first closing body tag
(lines 395-465): boilerplate, the captured widget, more boilerplate, and
the closing body tag itself. -/
def footerTemplate (w : Str) : Str := toL tplA ++ w ++ toL tplZ ++ toL "</body>"

/-- The `googleTranslateWidget` local of `processFile` (lines 381-384):
the captured widget fragment, or the empty (falsy) string. -/
def capturedWidget (content : Str) : Str :=
  match gtWidgetOf content with
  | some m => m
  | none => []

/-- The content after the marker-guarded removal step (lines 387-391). -/
def afterRemoval (content : Str) : Str :=
  if containsSub content footerMarker then removeFooterSections content else content

/-- The `changesMade` local of `processFile`: whether the removal step
changed the content (line 390). -/
def changesMadeB (content : Str) : Bool := !strEqB (afterRemoval content) content

/-- The whole text transformation of `processFile` (lines 370-474),
returning the final content and the `changesMade` flag, which is also
the write-back condition at line 468. -/
def processFileContent (content : Str) : Str × Bool :=
  (if !(capturedWidget content).isEmpty && changesMadeB content then
    replaceFirstL (toL "</body>") (footerTemplate (capturedWidget content))
      (afterRemoval content)
  else afterRemoval content,
  changesMadeB content)

/-- Final content written (or kept) by `processFile`. -/
def procResult (content : Str) : Str := (processFileContent content).1

/-- Whether `processFile` writes the file back (and bumps its counter). -/
def procWrites (content : Str) : Bool := (processFileContent content).2

theorem strEqB_iff (a : Str) : ∀ b : Str, strEqB a b = true ↔ a = b := by
  induction a with
  | nil => intro b; cases b <;> simp [strEqB]
  | cons x xs ih =>
    intro b
    cases b with
    | nil => simp [strEqB]
    | cons y ys => simp [strEqB, ih ys]

theorem strEqB_refl (a : Str) : strEqB a a = true := (strEqB_iff a a).mpr rfl

/-- Start positions in `s` at which `pat` occurs, tallied as a unit list
(built strictly so that concrete instances evaluate shallowly). -/
def occAcc (pat : Str) : Str → List Unit → List Unit
  | [], acc => acc
  | c :: t, acc =>
    if pat.isPrefixOf (c :: t) then occAcc pat t (() :: acc) else occAcc pat t acc

/-- One unit per start position of an occurrence of `pat` in `s`. -/
def occurrencesOf (pat s : Str) : List Unit := occAcc pat s []

/-- If the matcher fails at every suffix, suffix-matcher replacement is
the identity. -/
theorem replaceAllSufF_of_none (m : Str → Option (Str × Str)) (repl : Str) :
    ∀ fuel s : Str, (∀ t, t <:+ s → m t = none) → replaceAllSufF fuel m repl s = s := by
  intro fuel
  induction fuel with
  | nil => intro s _; cases s <;> rfl
  | cons u fuelT ih =>
    intro s hm
    cases s with
    | nil => rfl
    | cons c t =>
      simp only [replaceAllSufF, hm (c :: t) List.suffix_rfl]
      rw [ih t fun u hu => hm u (hu.trans (List.suffix_cons c t))]

theorem containsSub_suffix {s t pat : Str} (hst : t <:+ s)
    (h : containsSub t pat = true) : containsSub s pat = true := by
  unfold containsSub at h ⊢
  rw [List.any_eq_true] at h ⊢
  obtain ⟨u, hu, hp⟩ := h
  exact ⟨u, (List.mem_tails _ _).mpr (((List.mem_tails _ _).mp hu).trans hst), hp⟩

/-- A successful match of the footer-section regex starts with an opening
tag that contains the marker token, so the matched suffix contains it. -/
theorem matchSuf_sectionRe_marker (acc s : Str) (r : Str × Str)
    (h : matchSuf sectionRe acc s = some r) : containsSub s footerMarker = true := by
  unfold sectionRe at h
  simp only [matchSuf] at h
  split at h
  case isFalse => exact absurd h (by simp)
  case isTrue h1 =>
    obtain ⟨k, hkmem, hk⟩ := List.exists_of_findSome?_eq_some h
    split at hk
    case isFalse => exact absurd hk (by simp)
    case isTrue h2 =>
      have hsuf : List.drop k (List.drop (toL "<section").length s) <:+ s :=
        (List.drop_suffix _ _).trans (List.drop_suffix _ _)
      have hin : containsSub (List.drop k (List.drop (toL "<section").length s))
          footerMarker = true := by
        unfold containsSub
        rw [List.any_eq_true]
        exact ⟨_, (List.mem_tails _ _).mpr List.suffix_rfl, h2⟩
      exact containsSub_suffix hsuf hin

/-- Without the marker token in the content, the footer-removal regex
never matches and the removal pass is the identity. -/
theorem removeFooter_no_marker (c : Str) (hm : containsSub c footerMarker = false) :
    removeFooterSections c = c := by
  unfold removeFooterSections replaceAllSuf
  refine replaceAllSufF_of_none _ _ _ _ fun t hts => ?_
  cases hmt : matchSufAt sectionRe t with
  | none => rfl
  | some r =>
    exfalso
    have := containsSub_suffix hts (matchSuf_sectionRe_marker [] t r hmt)
    rw [hm] at this
    exact absurd this (by simp)

/-- With no marker in the content, `processFile` leaves the content
untouched and does not write. -/
theorem processFile_no_marker (c : Str) (hm : containsSub c footerMarker = false) :
    processFileContent c = (c, false) := by
  have ha : afterRemoval c = c := by
    unfold afterRemoval
    rw [hm]
    simp
  unfold processFileContent changesMadeB
  rw [ha, strEqB_refl]
  simp

/-- If the pattern occurs nowhere inside `A` (including straddling into
the final occurrence), first-occurrence replacement on `A ++ pat`
replaces exactly the final occurrence. -/
theorem replaceFirstL_at_end (pat repl A : Str) (hp : pat ≠ [])
    (h : A.tails.all (fun t => t.isEmpty || !(pat.isPrefixOf (t ++ pat))) = true) :
    replaceFirstL pat repl (A ++ pat) = A ++ repl := by
  induction A with
  | nil =>
    cases pat with
    | nil => exact absurd rfl hp
    | cons p ps =>
      simp only [List.nil_append, replaceFirstL]
      rw [if_pos (List.isPrefixOf_iff_prefix.mpr List.prefix_rfl)]
      simp
  | cons a A ih =>
    rw [List.tails_cons, List.all_cons] at h
    rcases (Bool.and_eq_true _ _).mp h with ⟨hhead, htail⟩
    have h1 : pat.isPrefixOf (a :: A ++ pat) = false := by
      rcases (Bool.or_eq_true _ _).mp hhead with he | hn
      · simp [List.isEmpty] at he
      · simpa using hn
    cases pat with
    | nil => exact absurd rfl hp
    | cons p ps =>
      have h2 : replaceFirstL (p :: ps) repl (A ++ (p :: ps)) = A ++ repl := ih htail
      rw [List.cons_append]
      simp only [replaceFirstL]
      rw [if_neg (by rw [← List.cons_append, h1]; simp), h2]
      rfl

/-- C6 counterexample: a file with no footer marker and no
parent-traversal token is still changed by the path fixer when it holds
a single-quoted reference to the old domain prefix. -/
theorem c6_domain_rewrite_changes_tokenless_file :
    containsSub (toL "\x27www.miracles-of-quran.com/") dotsPat = false ∧
    containsSub (toL "\x27www.miracles-of-quran.com/") footerMarker = false ∧
    fixPathsContent 0 (toL "\x27www.miracles-of-quran.com/") = toL "\"./" ∧
    fixPathsWrites 0 (toL "\x27www.miracles-of-quran.com/") = true := by
  refine ⟨by decide, by decide, by decide, by decide⟩

/-- C6 amended: a file containing no parent-traversal token, no quoted
old-domain reference, and no footer marker is left byte-for-byte
identical by both tools, and neither tool writes it back. -/
theorem c6_no_marker_no_tokens_unchanged (d : Nat) (c : Str)
    (hdots : hasOccM (litM dotsPat) c = false)
    (h1 : hasOccM (quoteM slashDomainStr) c = false)
    (h2 : hasOccM (quoteM domainStr) c = false)
    (hm : containsSub c footerMarker = false) :
    fixPathsContent d c = c ∧ fixPathsWrites d c = false ∧
    processFileContent c = (c, false) := by
  have hfix : fixPathsContent d c = c := by
    unfold fixPathsContent fixDotsStage
    rw [replaceAllM_of_no_occ _ _ _ hdots]
    exact fixDomainStages_of_no_occ c h1 h2
  refine ⟨hfix, ?_, processFile_no_marker c hm⟩
  unfold fixPathsWrites
  simp [hfix]

/-- Witness for `c6_no_marker_no_tokens_unchanged` at a concrete file. -/
theorem c6_no_marker_no_tokens_unchanged_witness :
    fixPathsContent 2 (toL "<p>hello world</p>") = toL "<p>hello world</p>" ∧
    fixPathsWrites 2 (toL "<p>hello world</p>") = false ∧
    processFileContent (toL "<p>hello world</p>") = (toL "<p>hello world</p>", false) :=
  c6_no_marker_no_tokens_unchanged 2 (toL "<p>hello world</p>")
    (by decide) (by decide) (by decide) (by decide)

/-- The seams of a content string at its quote-plus-domain occurrences. -/
def splitOnQuoteDomain (c : Str) : List Str := splitMF (c.length + 1) (quoteM domainStr) c

/-- The seams of a content string at its quote-plus-slash-domain occurrences. -/
def splitOnSlashQuoteDomain (c : Str) : List Str :=
  splitMF (c.length + 1) (quoteM slashDomainStr) c

/-- C10: the two quoted-domain rewrites replace every occurrence with a
fixed double-quoted replacement regardless of which quote character the
input used; in particular a single-quoted reference gets its opening
quote turned into a double quote. -/
theorem c10_quote_normalisation :
    (∀ c, replaceAllM (quoteM slashDomainStr) (toL "\"/") c =
      List.intercalate (toL "\"/") (splitOnSlashQuoteDomain c)) ∧
    (∀ c, replaceAllM (quoteM domainStr) (toL "\"./") c =
      List.intercalate (toL "\"./") (splitOnQuoteDomain c)) ∧
    (∀ rest, quoteM domainStr (sqc :: (domainStr ++ rest)) =
        quoteM domainStr (dqc :: (domainStr ++ rest)) ∧
      quoteM domainStr (sqc :: (domainStr ++ rest)) = some (domainStr.length + 1)) ∧
    fixPathsContent 1 (toL "<link href=\x27www.miracles-of-quran.com/a.css\x27>") =
      toL "<link href=\"./a.css\x27>" := by
  refine ⟨fun c => replaceAllM_eq_intercalate _ _ c,
    fun c => replaceAllM_eq_intercalate _ _ c, fun rest => ?_, by decide⟩
  have hpre : domainStr.isPrefixOf (domainStr ++ rest) = true :=
    List.isPrefixOf_iff_prefix.mpr (List.prefix_append _ _)
  constructor <;> simp [quoteM, hpre]

/-- JavaScript `toLowerCase`, modelled characterwise (adequate for the
ASCII marker strings involved). -/
def lowerStr (c : Str) : Str := c.map Char.toLower

/-- The index-conflict classification at lines 183-185: the markers
`httrack` and `mirror` are looked for in the lower-cased outer content,
but `hts-log.txt` is looked for with `includes` on the original,
case-sensitive content. -/
def isHttrackIndex (outsideContent : Str) : Bool :=
  containsSub (lowerStr outsideContent) (toL "httrack") ||
  containsSub (lowerStr outsideContent) (toL "mirror") ||
  containsSub outsideContent (toL "hts-log.txt")

/-- Root directory entries produced by the index-conflict handling at
lines 183-205: the outer index is renamed to a backup name decided by
the marker test and the inner index becomes the root `index.html` in
both branches. -/
def resolveIndexConflict (outsideContent insideContent : Str) : List (String × Str) :=
  if isHttrackIndex outsideContent then
    [("httrack-index.html", outsideContent), ("index.html", insideContent)]
  else
    [("original-index.html", outsideContent), ("index.html", insideContent)]

/-- Marker test as the amended claim words it: the tool name and the
word mirror are case-insensitive, the log filename is case-sensitive. -/
def amendedIndexMarker (c : Str) : Bool :=
  containsSub (lowerStr c) (toL "httrack") || containsSub (lowerStr c) (toL "mirror") ||
  containsSub c (toL "hts-log.txt")

/-- C3 counterexample: the log-filename marker is tested
case-sensitively.  An outer index containing `HTS-LOG.TXT` carries the
claim's case-insensitive marker, yet is renamed to the generic backup
name rather than the tool backup name. -/
theorem c3_log_marker_case_sensitive :
    containsSub (lowerStr (toL "<html>HTS-LOG.TXT</html>")) (toL "hts-log.txt") = true ∧
    resolveIndexConflict (toL "<html>HTS-LOG.TXT</html>") (toL "<html>home</html>") =
      [("original-index.html", toL "<html>HTS-LOG.TXT</html>"),
       ("index.html", toL "<html>home</html>")] := by
  exact ⟨by decide, by decide⟩

/-- C3 amended: the outer index is renamed to `httrack-index.html`
exactly when its text contains `httrack` or `mirror` case-insensitively
or `hts-log.txt` case-sensitively, and to `original-index.html`
otherwise; in both branches the inner index becomes the root
`index.html`. -/
theorem c3_index_conflict_resolution (outside inside : Str) :
    resolveIndexConflict outside inside =
      if amendedIndexMarker outside then
        [("httrack-index.html", outside), ("index.html", inside)]
      else
        [("original-index.html", outside), ("index.html", inside)] := rfl

/-- The widget container element. -/
def widgetDivStr : Str := toL "<div id=\"google_translate_element\"></div>"

/-- A minimal widget loader script matching the extraction regex. -/
def widgetScriptStr : Str := toL "<script src=\"translate_a/element\"></script>"

/-- A minimal full widget fragment: container followed by loader. -/
def sampleWidget : Str := widgetDivStr ++ widgetScriptStr

/-- A footer section carrying the marker and containing the widget. -/
def c4SectionWithWidget : Str :=
  toL "<section class=\"cid-tJkSLE66e9\">" ++ sampleWidget ++ toL "</section>"

/-- Representative document: the marker occurs only in one well-formed
section block, which also contains the widget fragment. -/
def c4DocGood : Str := toL "<html><body>" ++ c4SectionWithWidget ++ toL "</body></html>"

/-- A marked footer section that does not contain the widget. -/
def c4SectionPlain : Str := toL "<section class=\"cid-tJkSLE66e9\">junk</section>"

/-- Document whose widget fragment sits outside the marked section. -/
def c4DocBad : Str := toL "<html><body>" ++ sampleWidget ++ c4SectionPlain ++ toL "</body></html>"

/-- C4 amended: the universal reading of the claim is false (see the
counterexample below, where the widget container ends up twice in the
output).  What is exhibited here is the concrete document c4DocGood,
whose single marked section contains the document's only widget
occurrence: the pass removes that section, the output carries no
occurrence of the footer marker and exactly one occurrence of the
widget container, inside the boilerplate block inserted immediately
before the closing body tag, and the file is written back. -/
theorem c4_footer_removed_widget_reinserted :
    procResult c4DocGood =
      toL "<html><body>" ++ footerTemplate sampleWidget ++ toL "</html>" ∧
    containsSub (procResult c4DocGood) footerMarker = false ∧
    occurrencesOf widgetDivStr (procResult c4DocGood) = [()] ∧
    procWrites c4DocGood = true := by
  exact ⟨(strEqB_iff _ _).mp (by rfl), by rfl, by rfl, by rfl⟩

/-- C4 counterexample: a document that contains both the marker and the
widget fragment, but with the widget outside the removed section.  The
original widget stays in place at the start of the output and a restyled
copy is inserted before the closing body tag, so the container occurs a
second time after the original one: it does not appear exactly once. -/
theorem c4_widget_outside_section_duplicated :
    containsSub c4DocBad footerMarker = true ∧
    gtWidgetOf c4DocBad = some sampleWidget ∧
    (toL "<html><body>" ++ sampleWidget).isPrefixOf (procResult c4DocBad) = true ∧
    containsSub
      (List.drop (toL "<html><body>" ++ sampleWidget).length (procResult c4DocBad))
      widgetDivStr = true := by
  exact ⟨by rfl, by rfl, by rfl, by rfl⟩

/-- Opening tag of a marked footer section used in the write-back
counterexample. -/
def c9Opener : Str := toL "<section cid-tJkSLE66e9>"

/-- First building block of the write-back counterexample document. -/
def c9R : Str := c9Opener ++ widgetScriptStr ++ toL tplZ

/-- Second building block of the write-back counterexample document. -/
def c9S : Str := toL tplA ++ widgetDivStr ++ toL "</section>"

/-- A document on which the footer-removal pass removes a marked section
yet the re-inserted widget boilerplate reconstructs the original text
exactly: the tool writes the file although the content is unchanged. -/
def c9Doc : Str := c9R ++ c9S ++ c9R ++ toL "</body>"

/-- The widget fragment the extraction regex captures from `c9Doc`. -/
def c9Widget : Str := widgetDivStr ++ toL "</section>" ++ c9Opener ++ widgetScriptStr

/-- C9 counterexample: `processFile` writes the file back (its
`changesMade` flag is set by the removal step) although the final
content equals the original byte-for-byte, so a write-back is not
equivalent to the transformed text differing from the original. -/
theorem c9_write_back_without_content_change :
    procWrites c9Doc = true ∧ procResult c9Doc = c9Doc := by
  have hw : gtWidgetOf c9Doc = some c9Widget := by rfl
  have hmark : containsSub c9Doc footerMarker = true := by rfl
  have hrem : removeFooterSections c9Doc = c9R ++ toL "</body>" :=
    (strEqB_iff _ _).mp (by rfl)
  have hne : strEqB (c9R ++ toL "</body>") c9Doc = false := by rfl
  have hins : replaceFirstL (toL "</body>") (footerTemplate c9Widget)
      (c9R ++ toL "</body>") = c9R ++ footerTemplate c9Widget :=
    replaceFirstL_at_end _ _ _ (by decide) (by rfl)
  have hfin : c9R ++ footerTemplate c9Widget = c9Doc := by
    have h2 : footerTemplate c9Widget = c9S ++ c9R ++ toL "</body>" :=
      (strEqB_iff _ _).mp (by rfl)
    rw [h2]
    show c9R ++ (c9S ++ c9R ++ toL "</body>") = c9R ++ c9S ++ c9R ++ toL "</body>"
    simp [List.append_assoc]
  have hcap : capturedWidget c9Doc = c9Widget := by
    unfold capturedWidget
    rw [hw]
  have haft : afterRemoval c9Doc = c9R ++ toL "</body>" := by
    unfold afterRemoval
    rw [hmark]
    simp [hrem]
  have hch : changesMadeB c9Doc = true := by
    unfold changesMadeB
    rw [haft, hne]
    rfl
  have hcond : (!(capturedWidget c9Doc).isEmpty && changesMadeB c9Doc) = true := by
    rw [hcap, hch]
    rfl
  have hproc : processFileContent c9Doc = (c9R ++ footerTemplate c9Widget, true) := by
    unfold processFileContent
    rw [hcond, hch, hcap, haft]
    simp [hins]
  constructor
  · unfold procWrites
    rw [hproc]
  · unfold procResult
    rw [hproc, hfin]

/-- C9 amended: the path fixer writes a file back exactly when the
substituted text differs from the original; the footer tool writes a
file back exactly when the removal step changed the content, which its
widget re-insertion can later undo (see the counterexample), and a file
that is not written is returned unchanged. -/
theorem c9_write_guard_characterisation (d : Nat) (c : Str) :
    (fixPathsWrites d c = true ↔ fixPathsContent d c ≠ c) ∧
    (procWrites c = true ↔ removeFooterSections c ≠ c) ∧
    (procWrites c = false → procResult c = c) := by
  refine ⟨?_, ?_, ?_⟩
  · unfold fixPathsWrites
    exact decide_eq_true_iff
  · have hpw : procWrites c = !strEqB (afterRemoval c) c := rfl
    rw [hpw]
    by_cases hm : containsSub c footerMarker = true
    · have ha : afterRemoval c = removeFooterSections c := by
        unfold afterRemoval
        rw [hm]
        simp
      rw [ha]
      constructor
      · intro h hEq
        rw [hEq, strEqB_refl] at h
        simp at h
      · intro hne2
        cases hb : strEqB (removeFooterSections c) c with
        | true => exact absurd ((strEqB_iff _ _).mp hb) hne2
        | false => rfl
    · have hmf : containsSub c footerMarker = false := by
        cases hb : containsSub c footerMarker with
        | false => rfl
        | true => exact absurd hb hm
      have ha : afterRemoval c = c := by
        unfold afterRemoval
        rw [hmf]
        simp
      rw [ha, strEqB_refl, removeFooter_no_marker c hmf]
      simp
  · intro hw
    have hch : changesMadeB c = false := hw
    have ha : afterRemoval c = c := by
      unfold changesMadeB at hch
      cases hb : strEqB (afterRemoval c) c with
      | false => rw [hb] at hch; simp at hch
      | true => exact (strEqB_iff _ _).mp hb
    show (processFileContent c).1 = c
    unfold processFileContent
    rw [hch, ha]
    simp

/-- Witness for `c9_write_guard_characterisation` at concrete files. -/
theorem c9_write_guard_characterisation_witness :
    fixPathsWrites 0 (toL "a href=\x27../up.html\x27") = true ∧
    procResult (toL "plain file") = toL "plain file" :=
  ⟨(c9_write_guard_characterisation 0 (toL "a href=\x27../up.html\x27")).1.mpr (by decide),
   (c9_write_guard_characterisation 0 (toL "plain file")).2.2 (by rfl)⟩

/-!
## Model of `moveAndFixStructure` collision handling and `mergeDirectories`
(fix-path.js lines 211-274)

Directory trees are modelled as association lists of named entries.  The
moving loop and the recursive merge are modelled with an explicit fuel
(the recursion is on pairs of subtrees); functions return the resulting
source remainder and destination together with a success flag that is
false when a filesystem call would have thrown (propagating the partial
state, as the caught exception does).
-/

/-- A filesystem entry for the merge model: a file with contents, or a
directory with an ordered listing of named children. -/
inductive Ent where
  | file : Str → Ent
  | dir : List (String × Ent) → Ent

/-- Look up a name in a directory listing. -/
def lookupEnt : List (String × Ent) → String → Option Ent
  | [], _ => none
  | (n, e) :: rest, m => if n = m then some e else lookupEnt rest m

/-- Replace the entry under a name, or append it (models
`fs.renameSync` to a fresh or just-unlinked path). -/
def setEnt : List (String × Ent) → String → Ent → List (String × Ent)
  | [], m, v => [(m, v)]
  | (n, e) :: rest, m, v => if n = m then (m, v) :: rest else (n, e) :: setEnt rest m v

/-- `mergeDirectories(src, dest)` (lines 248-274): iterate over the
source listing; a fresh name is renamed across; a name that exists in
the destination is merged recursively when both sides are directories,
and otherwise the destination entry is unlinked and replaced -- which
throws (flag false, partial state kept) when the destination entry is a
directory, because `fs.unlinkSync` cannot remove directories.  After the
loop the source directory is removed if empty. -/
def mergeDirsF : Nat → List (String × Ent) → List (String × Ent) →
    List (String × Ent) × List (String × Ent) × Bool
  | 0, src, dest => (src, dest, false)
  | _ + 1, [], dest => ([], dest, true)
  | fuel + 1, (n, se) :: srcRest, dest =>
    match lookupEnt dest n with
    | none => mergeDirsF fuel srcRest (setEnt dest n se)
    | some de =>
      match se, de with
      | Ent.dir sk, Ent.dir dk =>
        let r := mergeDirsF fuel sk dk
        let dest2 := setEnt dest n (Ent.dir r.2.1)
        if r.2.2 then
          let r2 := mergeDirsF fuel srcRest dest2
          (if r.1.isEmpty then r2.1 else (n, Ent.dir r.1) :: r2.1, r2.2.1, r2.2.2)
        else ((n, Ent.dir r.1) :: srcRest, dest2, false)
      | _, Ent.dir _ => ((n, se) :: srcRest, dest, false)
      | _, _ => mergeDirsF fuel srcRest (setEnt dest n se)

/-- One step of the moving loop of `moveAndFixStructure`
(lines 211-233) for an entry `n` of the mirror subdirectory: returns the
new root listing, what remains of the moved entry in the subdirectory,
and whether the step succeeded.  A source directory colliding with a
destination file enters `mergeDirectories` against a file path: moving
any child into it throws, while an empty source directory is silently
removed by the trailing `rmdirSync`.  A source file colliding with a
destination directory throws in `fs.unlinkSync`. -/
def moveEntry (fuel : Nat) (root : List (String × Ent)) (n : String) (se : Ent) :
    List (String × Ent) × Option Ent × Bool :=
  match lookupEnt root n with
  | none => (setEnt root n se, none, true)
  | some de =>
    match se with
    | Ent.dir sk =>
      match de with
      | Ent.dir dk =>
        let r := mergeDirsF fuel sk dk
        let root2 := setEnt root n (Ent.dir r.2.1)
        if r.2.2 then (root2, if r.1.isEmpty then none else some (Ent.dir r.1), true)
        else (root2, some (Ent.dir r.1), false)
      | Ent.file _ =>
        if sk.isEmpty then (root, none, true) else (root, some se, false)
    | Ent.file _ =>
      match de with
      | Ent.dir _ => (root, some se, false)
      | Ent.file _ => (setEnt root n se, none, true)

/-- Modelled from the claim's words: recursive union of two listings in
which source entries win on name collisions and directory pairs are
unioned recursively. -/
def unionEnts : Nat → List (String × Ent) → List (String × Ent) → List (String × Ent)
  | 0, _, dest => dest
  | _ + 1, [], dest => dest
  | fuel + 1, (n, se) :: srcRest, dest =>
    match lookupEnt dest n, se with
    | some (Ent.dir dk), Ent.dir sk =>
      unionEnts fuel srcRest (setEnt dest n (Ent.dir (unionEnts fuel sk dk)))
    | _, _ => unionEnts fuel srcRest (setEnt dest n se)

/-- Compatibility of a merge: no source file collides with a destination
directory anywhere in the recursion (that is the one collision shape on
which `mergeDirectories` throws), and the fuel covers the recursion. -/
def okMerge : Nat → List (String × Ent) → List (String × Ent) → Bool
  | 0, _, _ => false
  | _ + 1, [], _ => true
  | fuel + 1, (n, se) :: srcRest, dest =>
    match lookupEnt dest n, se with
    | some (Ent.dir dk), Ent.dir sk =>
      okMerge fuel sk dk && okMerge fuel srcRest (setEnt dest n (Ent.dir (unionEnts fuel sk dk)))
    | some (Ent.dir _), _ => false
    | _, _ => okMerge fuel srcRest (setEnt dest n se)

/-- On compatible inputs the merge empties the source, succeeds, and
computes exactly the source-wins recursive union. -/
theorem mergeDirsF_computes_union (fuel : Nat) :
    ∀ src dest, okMerge fuel src dest = true →
    mergeDirsF fuel src dest = ([], unionEnts fuel src dest, true) := by
  induction fuel with
  | zero => intro src dest h; simp [okMerge] at h
  | succ fuel ih =>
    intro src dest h
    cases src with
    | nil => rfl
    | cons p srcRest =>
      obtain ⟨n, se⟩ := p
      unfold okMerge at h
      unfold mergeDirsF unionEnts
      cases hl : lookupEnt dest n with
      | none =>
        rw [hl] at h
        cases se with
        | file content => exact ih srcRest _ h
        | dir sk => exact ih srcRest _ h
      | some de =>
        rw [hl] at h
        cases se with
        | file content =>
          cases de with
          | file dcontent => exact ih srcRest _ h
          | dir dk => exact absurd h (by simp)
        | dir sk =>
          cases de with
          | file dcontent => exact ih srcRest _ h
          | dir dk =>
            rw [Bool.and_eq_true] at h
            have h1 := ih sk dk h.1
            have h2 := ih srcRest _ h.2
            simp only [h1, List.isEmpty_nil, if_true]
            exact h2

/-- C5 counterexample: on a name collision where the types differ, the
root's existing entry is NOT deleted and replaced.  A source directory
over a destination file fails inside `mergeDirectories` (rename into a
file path); a source file over a destination directory fails in
`fs.unlinkSync`.  Both leave the destination entry in place. -/
theorem c5_mixed_type_collision_not_replaced :
    moveEntry 9 [("a", Ent.file (toL "keep"))] "a" (Ent.dir [("b", Ent.file (toL "x"))]) =
      ([("a", Ent.file (toL "keep"))], some (Ent.dir [("b", Ent.file (toL "x"))]), false) ∧
    moveEntry 9 [("a", Ent.dir [("b", Ent.file (toL "x"))])] "a" (Ent.file (toL "new")) =
      ([("a", Ent.dir [("b", Ent.file (toL "x"))])], some (Ent.file (toL "new")), false) := by
  exact ⟨rfl, rfl⟩

/-- C5 amended: when the moved entry collides with a root entry, two
directories are recursively unioned with source entries winning (on
merge-compatible trees); two files are resolved by deleting the root
file and moving the source file in; mixed types fail with the
destination entry kept. -/
theorem c5_collision_move_semantics (fuel : Nat) (root : List (String × Ent)) (n : String) :
    (∀ sk dk, lookupEnt root n = some (Ent.dir dk) → okMerge fuel sk dk = true →
      moveEntry fuel root n (Ent.dir sk) =
        (setEnt root n (Ent.dir (unionEnts fuel sk dk)), none, true)) ∧
    (∀ content dContent, lookupEnt root n = some (Ent.file dContent) →
      moveEntry fuel root n (Ent.file content) =
        (setEnt root n (Ent.file content), none, true)) ∧
    (∀ content dk, lookupEnt root n = some (Ent.dir dk) →
      moveEntry fuel root n (Ent.file content) = (root, some (Ent.file content), false)) ∧
    (∀ sk dContent, sk ≠ [] → lookupEnt root n = some (Ent.file dContent) →
      moveEntry fuel root n (Ent.dir sk) = (root, some (Ent.dir sk), false)) := by
  refine ⟨?_, ?_, ?_, ?_⟩
  · intro sk dk hl hok
    unfold moveEntry
    simp only [hl]
    rw [mergeDirsF_computes_union fuel sk dk hok]
    rfl
  · intro content dContent hl
    unfold moveEntry
    rw [hl]
  · intro content dk hl
    unfold moveEntry
    rw [hl]
  · intro sk dContent hsk hl
    unfold moveEntry
    rw [hl]
    have : sk.isEmpty = false := by
      cases sk with
      | nil => exact absurd rfl hsk
      | cons a l => rfl
    simp [this]

/-- Witness for `c5_collision_move_semantics` at concrete listings. -/
theorem c5_collision_move_semantics_witness :
    moveEntry 3 [("css", Ent.dir [("m.css", Ent.file (toL "old"))]),
        ("a.txt", Ent.file (toL "r"))] "css" (Ent.dir [("m.css", Ent.file (toL "new"))]) =
      ([("css", Ent.dir (unionEnts 3 [("m.css", Ent.file (toL "new"))]
          [("m.css", Ent.file (toL "old"))])), ("a.txt", Ent.file (toL "r"))], none, true) ∧
    moveEntry 3 [("a.txt", Ent.file (toL "r"))] "a.txt" (Ent.file (toL "s")) =
      ([("a.txt", Ent.file (toL "s"))], none, true) := by
  constructor
  · exact (c5_collision_move_semantics 3 [("css", Ent.dir [("m.css", Ent.file (toL "old"))]),
      ("a.txt", Ent.file (toL "r"))] "css").1 [("m.css", Ent.file (toL "new"))]
      [("m.css", Ent.file (toL "old"))] (by rfl) (by rfl)
  · exact (c5_collision_move_semantics 3 _ "a.txt").2.1 (toL "s") (toL "r") (by rfl)

/-!
## Model of `getAllHtmlFiles` (fix-path.js lines 12-51)

The traversal works on a directory tree whose entries are regular files,
subdirectories, or symbolic links (which `fs.readdirSync(...,
{ withFileTypes: true })` reports with `isDirectory() === false`, so the
scanner never steps through them; a link whose name ends in `.html` is
pushed like a file).  Absolute paths are modelled as segment lists;
`path.resolve` on the already absolute `path.join(dir, name)` is the
identity, so the visited set holds these segment lists.  `fuel` only
bounds the recursion depth; any fuel of at least the tree size gives the
traversal's result (`scanItemsF_stable`).
-/

/-- A directory-tree entry as the scanner sees it: a regular file, a
subdirectory, or a symbolic link with its target path. -/
inductive FsEnt where
  | file : FsEnt
  | dir : List (String × FsEnt) → FsEnt
  | symlink : List String → FsEnt

/-- The skip filter of lines 33-38: hidden names, `node_modules`, names
containing `backup`, and `hts-cache`. -/
def excludedName (n : String) : Bool :=
  (match n.toList with
   | c :: _ => c == Char.ofNat 46
   | [] => false) ||
  n == "node_modules" || containsSub n.toList (toL "backup") || n == "hts-cache"

/-- The inclusion filter of line 42: `item.name.endsWith('.html')`. -/
def hasHtmlExt (n : String) : Bool := (toL ".html").isSuffixOf n.toList

/-- The body of `getAllHtmlFiles`: fold over one directory listing,
skipping excluded names, recursing into subdirectories (entering a
directory adds its absolute path to the shared visited set and a path
already present is skipped), and collecting `.html`-named non-directory
entries.  Returns the collected paths and the final visited set. -/
def scanItemsF : Nat → List String → List (List String) → List (String × FsEnt) →
    List (List String) × List (List String)
  | 0, _, visited, _ => ([], visited)
  | _ + 1, _, visited, [] => ([], visited)
  | fuel + 1, absDir, visited, (name, e) :: rest =>
    if excludedName name then scanItemsF fuel absDir visited rest
    else
      match e with
      | FsEnt.dir kids =>
        let sub := absDir ++ [name]
        let r1 := if visited.contains sub then (([] : List (List String)), visited)
          else scanItemsF fuel sub (sub :: visited) kids
        let r2 := scanItemsF fuel absDir r1.2 rest
        (r1.1 ++ r2.1, r2.2)
      | FsEnt.file =>
        let r2 := scanItemsF fuel absDir visited rest
        ((if hasHtmlExt name then [absDir ++ [name]] else []) ++ r2.1, r2.2)
      | FsEnt.symlink _ =>
        let r2 := scanItemsF fuel absDir visited rest
        ((if hasHtmlExt name then [absDir ++ [name]] else []) ++ r2.1, r2.2)

/-- `getAllHtmlFiles(root)`: the root's resolved path starts the visited
set; a non-directory root makes `readdirSync` throw, which is caught and
yields the empty list. -/
def getAllHtmlFiles (fuel : Nat) (rootAbs : List String) (t : FsEnt) : List (List String) :=
  match t with
  | FsEnt.dir items => (scanItemsF fuel rootAbs [rootAbs] items).1
  | _ => []

/-- Well-formedness of a directory listing: sibling names are distinct
at every level (as `readdirSync` guarantees).  The fuel steps in the
same way as the scanner's. -/
def wfFs : Nat → List (String × FsEnt) → Bool
  | 0, _ => false
  | _ + 1, [] => true
  | fuel + 1, (n, e) :: rest =>
    !((rest.map Prod.fst).contains n) &&
    (match e with
     | FsEnt.dir kids => wfFs fuel kids
     | _ => true) &&
    wfFs fuel rest

/-- Does the tree contain, at any depth, a symbolic link pointing back
to an ancestor directory (a prefix of the directory it sits in)? -/
def hasCycleSymlinkF : Nat → List String → List (String × FsEnt) → Bool
  | 0, _, _ => false
  | fuel + 1, absDir, items =>
    items.any fun p =>
      match p.2 with
      | FsEnt.symlink target => decide (target <+: absDir)
      | FsEnt.dir kids => hasCycleSymlinkF fuel (absDir ++ [p.1]) kids
      | FsEnt.file => false

theorem scanItemsF_sound (fuel : Nat) :
    ∀ absDir visited items p, p ∈ (scanItemsF fuel absDir visited items).1 →
    ∃ pre lastN, p = absDir ++ pre ++ [lastN] ∧
      (∀ s ∈ pre, excludedName s = false) ∧
      excludedName lastN = false ∧ hasHtmlExt lastN = true := by
  induction fuel with
  | zero => intro _ _ _ p hp; simp [scanItemsF] at hp
  | succ fuel ih =>
    intro absDir visited items p hp
    cases items with
    | nil => simp [scanItemsF] at hp
    | cons q rest =>
      obtain ⟨name, e⟩ := q
      by_cases hex : excludedName name = true
      · simp only [scanItemsF, hex, if_true] at hp
        exact ih _ _ _ p hp
      · have hexf : excludedName name = false := by
          cases hb : excludedName name with
          | false => rfl
          | true => exact absurd hb hex
        cases e with
        | file =>
          simp only [scanItemsF, hexf, Bool.false_eq_true, if_false] at hp
          rw [List.mem_append] at hp
          rcases hp with hp | hp
          · by_cases hh : hasHtmlExt name = true
            · rw [if_pos hh] at hp
              rw [List.mem_singleton] at hp
              exact ⟨[], name, by simp [hp], by simp, hexf, hh⟩
            · rw [if_neg hh] at hp
              exact absurd hp (List.not_mem_nil p)
          · exact ih _ _ _ p hp
        | symlink tgt =>
          simp only [scanItemsF, hexf, Bool.false_eq_true, if_false] at hp
          rw [List.mem_append] at hp
          rcases hp with hp | hp
          · by_cases hh : hasHtmlExt name = true
            · rw [if_pos hh] at hp
              rw [List.mem_singleton] at hp
              exact ⟨[], name, by simp [hp], by simp, hexf, hh⟩
            · rw [if_neg hh] at hp
              exact absurd hp (List.not_mem_nil p)
          · exact ih _ _ _ p hp
        | dir kids =>
          simp only [scanItemsF, hexf, Bool.false_eq_true, if_false] at hp
          rw [List.mem_append] at hp
          rcases hp with hp | hp
          · by_cases hv : visited.contains (absDir ++ [name]) = true
            · rw [if_pos hv] at hp
              exact absurd hp (List.not_mem_nil p)
            · rw [if_neg hv] at hp
              obtain ⟨pre, lastN, hpeq, hpre, hlast, hhtml⟩ := ih _ _ _ p hp
              refine ⟨name :: pre, lastN, ?_, ?_, hlast, hhtml⟩
              · rw [hpeq]
                simp
              · intro s hs
                rcases List.mem_cons.mp hs with hs | hs
                · rw [hs]; exact hexf
                · exact hpre s hs
          · exact ih _ _ _ p hp

/-- C7: every file the scanner returns lies on a path, below the root,
whose directory segments are all non-excluded, and its own name is
non-excluded and ends in `.html`; hence no file under an excluded
directory (at any depth) is ever included. -/
theorem c7_scan_exclusion_filter (fuel : Nat) (root : List String) (t : FsEnt)
    (p : List String) (hp : p ∈ getAllHtmlFiles fuel root t) :
    ∃ pre lastN, p = root ++ pre ++ [lastN] ∧
      (∀ s ∈ pre, excludedName s = false) ∧
      excludedName lastN = false ∧ hasHtmlExt lastN = true := by
  cases t with
  | dir items => exact scanItemsF_sound fuel root [root] items p hp
  | file => simp [getAllHtmlFiles] at hp
  | symlink tgt => simp [getAllHtmlFiles] at hp

/-- Witness for `c7_scan_exclusion_filter` at a concrete tree. -/
theorem c7_scan_exclusion_filter_witness :
    ∃ pre lastN, ["site", "sub", "page.html"] = ["site"] ++ pre ++ [lastN] ∧
      (∀ s ∈ pre, excludedName s = false) ∧
      excludedName lastN = false ∧ hasHtmlExt lastN = true :=
  c7_scan_exclusion_filter 9 ["site"]
    (FsEnt.dir [("index.html", FsEnt.file),
      ("node_modules", FsEnt.dir [("x.html", FsEnt.file)]),
      ("old-backup", FsEnt.dir [("y.html", FsEnt.file)]),
      ("sub", FsEnt.dir [("page.html", FsEnt.file), ("style.css", FsEnt.file)])])
    ["site", "sub", "page.html"] (by decide)

theorem scanItemsF_shape (fuel : Nat) :
    ∀ absDir visited items p, p ∈ (scanItemsF fuel absDir visited items).1 →
    ∃ n rel, p = absDir ++ n :: rel ∧ n ∈ items.map Prod.fst := by
  induction fuel with
  | zero => intro _ _ _ p hp; simp [scanItemsF] at hp
  | succ fuel ih =>
    intro absDir visited items p hp
    cases items with
    | nil => simp [scanItemsF] at hp
    | cons q rest =>
      obtain ⟨name, e⟩ := q
      by_cases hex : excludedName name = true
      · simp only [scanItemsF, hex, if_true] at hp
        obtain ⟨n, rel, h1, h2⟩ := ih _ _ _ p hp
        exact ⟨n, rel, h1, by simp [h2]⟩
      · have hexf : excludedName name = false := by
          cases hb : excludedName name with
          | false => rfl
          | true => exact absurd hb hex
        cases e with
        | file =>
          simp only [scanItemsF, hexf, Bool.false_eq_true, if_false] at hp
          rw [List.mem_append] at hp
          rcases hp with hp | hp
          · by_cases hh : hasHtmlExt name = true
            · rw [if_pos hh, List.mem_singleton] at hp
              exact ⟨name, [], by simp [hp], by simp⟩
            · rw [if_neg hh] at hp
              exact absurd hp (List.not_mem_nil p)
          · obtain ⟨n, rel, h1, h2⟩ := ih _ _ _ p hp
            exact ⟨n, rel, h1, by simp [h2]⟩
        | symlink tgt =>
          simp only [scanItemsF, hexf, Bool.false_eq_true, if_false] at hp
          rw [List.mem_append] at hp
          rcases hp with hp | hp
          · by_cases hh : hasHtmlExt name = true
            · rw [if_pos hh, List.mem_singleton] at hp
              exact ⟨name, [], by simp [hp], by simp⟩
            · rw [if_neg hh] at hp
              exact absurd hp (List.not_mem_nil p)
          · obtain ⟨n, rel, h1, h2⟩ := ih _ _ _ p hp
            exact ⟨n, rel, h1, by simp [h2]⟩
        | dir kids =>
          simp only [scanItemsF, hexf, Bool.false_eq_true, if_false] at hp
          rw [List.mem_append] at hp
          rcases hp with hp | hp
          · by_cases hv : visited.contains (absDir ++ [name]) = true
            · rw [if_pos hv] at hp
              exact absurd hp (List.not_mem_nil p)
            · rw [if_neg hv] at hp
              obtain ⟨n, rel, h1, _⟩ := ih _ _ _ p hp
              refine ⟨name, n :: rel, ?_, by simp⟩
              rw [h1]
              simp
          · obtain ⟨n, rel, h1, h2⟩ := ih _ _ _ p hp
            exact ⟨n, rel, h1, by simp [h2]⟩

theorem scanItemsF_nodup (fuel : Nat) :
    ∀ absDir visited items, wfFs fuel items = true →
    (scanItemsF fuel absDir visited items).1.Nodup := by
  induction fuel with
  | zero => intro _ _ items hwf; simp [wfFs] at hwf
  | succ fuel ih =>
    intro absDir visited items hwf
    cases items with
    | nil => simp [scanItemsF]
    | cons q rest =>
      obtain ⟨name, e⟩ := q
      unfold wfFs at hwf
      rcases (Bool.and_eq_true _ _).mp hwf with ⟨h1, hrestwf⟩
      rcases (Bool.and_eq_true _ _).mp h1 with ⟨hcont, hkidwf⟩
      have hnames : name ∉ rest.map Prod.fst := by simpa using hcont
      by_cases hex : excludedName name = true
      · simp only [scanItemsF, hex, if_true]
        exact ih _ _ _ hrestwf
      · have hexf : excludedName name = false := by
          cases hb : excludedName name with
          | false => rfl
          | true => exact absurd hb hex
        cases e with
        | file =>
          simp only [scanItemsF, hexf, Bool.false_eq_true, if_false]
          by_cases hh : hasHtmlExt name = true
          · rw [if_pos hh]
            rw [List.singleton_append, List.nodup_cons]
            constructor
            · intro hmem
              obtain ⟨n, rel, hpe, hnm⟩ := scanItemsF_shape fuel _ _ rest _ hmem
              have hcancel : [name] = n :: rel := List.append_cancel_left hpe
              have : name = n := (List.cons.injEq _ _ _ _).mp hcancel.symm |>.1.symm
              exact hnames (this ▸ hnm)
            · exact ih _ _ _ hrestwf
          · rw [if_neg hh, List.nil_append]
            exact ih _ _ _ hrestwf
        | symlink tgt =>
          simp only [scanItemsF, hexf, Bool.false_eq_true, if_false]
          by_cases hh : hasHtmlExt name = true
          · rw [if_pos hh]
            rw [List.singleton_append, List.nodup_cons]
            constructor
            · intro hmem
              obtain ⟨n, rel, hpe, hnm⟩ := scanItemsF_shape fuel _ _ rest _ hmem
              have hcancel : [name] = n :: rel := List.append_cancel_left hpe
              have : name = n := (List.cons.injEq _ _ _ _).mp hcancel.symm |>.1.symm
              exact hnames (this ▸ hnm)
            · exact ih _ _ _ hrestwf
          · rw [if_neg hh, List.nil_append]
            exact ih _ _ _ hrestwf
        | dir kids =>
          have hkid2 : wfFs fuel kids = true := hkidwf
          simp only [scanItemsF, hexf, Bool.false_eq_true, if_false]
          refine List.Nodup.append ?_ (ih _ _ _ hrestwf) ?_
          · by_cases hv : visited.contains (absDir ++ [name]) = true
            · rw [if_pos hv]
              simp
            · rw [if_neg hv]
              exact ih _ _ _ hkid2
          · intro x hx1 hx2
            have hx1s : ∃ rel2, x = absDir ++ name :: rel2 := by
              by_cases hv : visited.contains (absDir ++ [name]) = true
              · rw [if_pos hv] at hx1
                exact absurd hx1 (List.not_mem_nil x)
              · rw [if_neg hv] at hx1
                obtain ⟨n2, rel2, hpe, _⟩ := scanItemsF_shape fuel _ _ kids _ hx1
                refine ⟨n2 :: rel2, ?_⟩
                rw [hpe]
                simp
            obtain ⟨rel2, hxe⟩ := hx1s
            obtain ⟨n, rel, hpe, hnm⟩ := scanItemsF_shape fuel _ _ rest _ hx2
            rw [hxe] at hpe
            have hcancel : name :: rel2 = n :: rel := List.append_cancel_left hpe
            have : name = n := ((List.cons.injEq _ _ _ _).mp hcancel).1
            exact hnames (this ▸ hnm)

theorem sizeOf_fsList_pos (l : List (String × FsEnt)) : 1 ≤ sizeOf l := by
  cases l with
  | nil => simp
  | cons a t => simp; omega

/-- The traversal stabilises: any two fuels at least the tree size give
the same result, so the recursion terminates with a fuel-independent
value on every finite tree (symlinked directories are never entered,
since `readdirSync` dirents report them as non-directories). -/
theorem scanItemsF_stable (f : Nat) :
    ∀ g absDir visited items, sizeOf items ≤ f → sizeOf items ≤ g →
    scanItemsF f absDir visited items = scanItemsF g absDir visited items := by
  induction f with
  | zero =>
    intro g a v items h1 _
    have := sizeOf_fsList_pos items
    omega
  | succ f ihf =>
    intro g a v items h1 h2
    cases g with
    | zero =>
      have := sizeOf_fsList_pos items
      omega
    | succ g =>
      cases items with
      | nil => rfl
      | cons q rest =>
        obtain ⟨name, e⟩ := q
        have hszr : sizeOf rest ≤ f ∧ sizeOf rest ≤ g := by
          simp only [List.cons.sizeOf_spec, Prod.mk.sizeOf_spec] at h1 h2
          omega
        by_cases hex : excludedName name = true
        · simp only [scanItemsF, hex, if_true]
          exact ihf g a v rest hszr.1 hszr.2
        · have hexf : excludedName name = false := by
            cases hb : excludedName name with
            | false => rfl
            | true => exact absurd hb hex
          cases e with
          | file =>
            simp only [scanItemsF, hexf, Bool.false_eq_true, if_false]
            rw [ihf g a v rest hszr.1 hszr.2]
          | symlink tgt =>
            simp only [scanItemsF, hexf, Bool.false_eq_true, if_false]
            rw [ihf g a v rest hszr.1 hszr.2]
          | dir kids =>
            have hszk : sizeOf kids ≤ f ∧ sizeOf kids ≤ g := by
              simp only [List.cons.sizeOf_spec, Prod.mk.sizeOf_spec,
                FsEnt.dir.sizeOf_spec] at h1 h2
              omega
            simp only [scanItemsF, hexf, Bool.false_eq_true, if_false]
            by_cases hv : v.contains (a ++ [name]) = true
            · rw [if_pos hv, if_pos hv, ihf g a v rest hszr.1 hszr.2]
            · rw [if_neg hv, if_neg hv,
                ihf g (a ++ [name]) ((a ++ [name]) :: v) kids hszk.1 hszk.2,
                ihf g a _ rest hszr.1 hszr.2]

/-- C8: on a well-formed tree containing a symbolic link back to an
ancestor directory, the traversal terminates (its value is the same for
every sufficient fuel, i.e. the recursion needs only boundedly many
steps) and the returned file list contains no duplicate paths. -/
theorem c8_cycle_safe_scan (fuel altFuel : Nat) (root : List String)
    (items : List (String × FsEnt))
    (hwf : wfFs fuel items = true)
    (_hcyc : hasCycleSymlinkF fuel root items = true)
    (hsz : sizeOf items ≤ fuel) (hsz2 : sizeOf items ≤ altFuel) :
    (getAllHtmlFiles fuel root (FsEnt.dir items)).Nodup ∧
    getAllHtmlFiles altFuel root (FsEnt.dir items) =
      getAllHtmlFiles fuel root (FsEnt.dir items) := by
  constructor
  · exact scanItemsF_nodup fuel root [root] items hwf
  · show (scanItemsF altFuel root [root] items).1 = (scanItemsF fuel root [root] items).1
    rw [scanItemsF_stable altFuel fuel root [root] items hsz2 hsz]

/-- A tree with a page at the root, a page in a subdirectory, and
symbolic links pointing back at the root from both levels. -/
def cycleTree : List (String × FsEnt) :=
  [("page.html", FsEnt.file), ("loop", FsEnt.symlink ["site"]),
   ("sub", FsEnt.dir [("a.html", FsEnt.file), ("up", FsEnt.symlink ["site"])])]

/-- Witness for `c8_cycle_safe_scan` on `cycleTree`. -/
theorem c8_cycle_safe_scan_witness :
    (getAllHtmlFiles (sizeOf cycleTree) ["site"] (FsEnt.dir cycleTree)).Nodup ∧
    getAllHtmlFiles (sizeOf cycleTree + 7) ["site"] (FsEnt.dir cycleTree) =
      getAllHtmlFiles (sizeOf cycleTree) ["site"] (FsEnt.dir cycleTree) :=
  c8_cycle_safe_scan (sizeOf cycleTree) (sizeOf cycleTree + 7) ["site"] cycleTree
    (by decide) (by decide) (Nat.le_refl _) (Nat.le_add_right _ _)
